import Mathlib

/-!
Verification of the memory-allocation and paging simulator
(`task 1/memory_management.py`): the `MemoryManager` with first-fit and
best-fit allocation, deallocation with coalescing of adjacent free blocks,
and the `PageTable` with FIFO and LRU page replacement.

Machine integers of the source (Python `int`) are modelled as `Int`;
Python lists as `List`; the `allocated_processes` dict as an insertion-ordered
association list (only membership, insertion and deletion of keys are ever
observable, since the stored values are never read back).
-/

/-- A block of memory, mirroring class `MemoryBlock`: `start`, `size`,
`process_id` (`None` for a free block) and the stored `is_free` flag, which the
constructor sets to `process_id is None`. -/
structure MemoryBlock where
  start : Int
  size : Int
  process_id : Option Int
  is_free : Bool
deriving DecidableEq, Repr

/-- `MemoryBlock.__init__`: `is_free` is derived from whether a process id was
supplied. -/
def mkBlock (start size : Int) (pid : Option Int) : MemoryBlock :=
  ⟨start, size, pid, pid.isNone⟩

/-- Default used to totalize Python list indexing (never hit on the in-range
reads the source performs). -/
def defaultBlock : MemoryBlock := ⟨0, 0, none, false⟩

instance : Inhabited MemoryBlock := ⟨defaultBlock⟩

/-- State of class `MemoryManager`: the total size, the block list, and the
`allocated_processes` dict (keys with their stored block values, in insertion
order). -/
structure MemoryManager where
  total_size : Int
  blocks : List MemoryBlock
  allocated_processes : List (Int × MemoryBlock)
deriving DecidableEq, Repr

/-- `MemoryManager.__init__`: one free block covering the whole space, empty
process index. -/
def mkManager (total : Int) : MemoryManager :=
  ⟨total, [mkBlock 0 total none], []⟩

/-- Python dict membership `process_id in allocated_processes`. -/
def assocHas (l : List (Int × MemoryBlock)) (k : Int) : Bool :=
  l.any (fun p => p.1 = k)

/-- Python dict assignment `allocated_processes[process_id] = block`:
overwrite in place if the key is present, else append. -/
def assocSet (l : List (Int × MemoryBlock)) (k : Int) (v : MemoryBlock) :
    List (Int × MemoryBlock) :=
  match l with
  | [] => [(k, v)]
  | (k', v') :: rest =>
      if k' = k then (k, v) :: rest else (k', v') :: assocSet rest k v

/-- Python dict deletion `del allocated_processes[process_id]`. -/
def assocErase (l : List (Int × MemoryBlock)) (k : Int) :
    List (Int × MemoryBlock) :=
  match l with
  | [] => []
  | (k', v') :: rest =>
      if k' = k then rest else (k', v') :: assocErase rest k

/-- The `for i, block in enumerate(...)` search pattern: index of the first
element satisfying the predicate. -/
def findFirstIdx {α : Type} (p : α → Bool) : List α → Option Nat
  | [] => none
  | x :: rest => if p x then some 0 else (findFirstIdx p rest).map (· + 1)

/-- The placement code shared verbatim by `allocate_first_fit` and
`allocate_best_fit`: build the owned block; if the chosen free block is
strictly larger than the request, replace it by the owned block followed by the
free remainder (the slice assignment `blocks[i:i+1] = [allocated, remaining]`),
else overwrite it in place; record the process in `allocated_processes`. The
second component models the reported address (`allocated.start`), `none`
standing for the `False` failure return. -/
def placeBlock (m : MemoryManager) (i : Nat) (pid size : Int) :
    MemoryManager × Option Int :=
  let block := m.blocks.getD i defaultBlock
  let allocated := mkBlock block.start size (some pid)
  let blocks' :=
    if size < block.size then
      m.blocks.take i ++
        [allocated, mkBlock (block.start + size) (block.size - size) none] ++
        m.blocks.drop (i + 1)
    else
      m.blocks.set i allocated
  ({ m with
      blocks := blocks',
      allocated_processes := assocSet m.allocated_processes pid allocated },
    some block.start)

/-- `MemoryManager.allocate_first_fit`: scan for the first free block with
`block.size >= size` and place there; on failure return the manager unchanged
with `none`. -/
def allocate_first_fit (m : MemoryManager) (pid size : Int) :
    MemoryManager × Option Int :=
  match findFirstIdx (fun b => b.is_free && decide (size ≤ b.size)) m.blocks with
  | none => (m, none)
  | some i => placeBlock m i pid size

/-- The scan loop of `allocate_best_fit`: carry the current best candidate as
`some (best_idx, best_size)` (`none` plays the role of
`best_idx = -1, best_size = inf`); a block replaces the candidate exactly when
it is free, large enough, and strictly smaller than the current best size. -/
def bestFitLoop (size : Int) : List MemoryBlock → Nat → Option (Nat × Int) →
    Option (Nat × Int)
  | [], _, best => best
  | b :: rest, i, best =>
      let better : Bool :=
        match best with
        | none => true
        | some (_, bsz) => decide (b.size < bsz)
      let takeIt := b.is_free && decide (size ≤ b.size) && better
      bestFitLoop size rest (i + 1) (if takeIt then some (i, b.size) else best)

/-- `MemoryManager.allocate_best_fit`: run the scan; if a candidate was found
place at its index, else fail with the manager unchanged. -/
def allocate_best_fit (m : MemoryManager) (pid size : Int) :
    MemoryManager × Option Int :=
  match bestFitLoop size m.blocks 0 none with
  | none => (m, none)
  | some (i, _) => placeBlock m i pid size

/-- The in-place mutation `block.is_free = True; block.process_id = None` of
`deallocate`. -/
def freeBlock (b : MemoryBlock) : MemoryBlock :=
  { b with is_free := true, process_id := none }

/-- One attempt of `_coalesce` to merge `blocks[index]` with `blocks[index+1]`
(the first `if` of the loop body): on success the current block absorbs the
next block's size and the next entry is popped. -/
def mergeNext (bs : List MemoryBlock) (i : Nat) : List MemoryBlock × Bool :=
  if i + 1 < bs.length then
    if (bs.getD i defaultBlock).is_free && (bs.getD (i + 1) defaultBlock).is_free then
      ((bs.set i { bs.getD i defaultBlock with
          size := (bs.getD i defaultBlock).size +
            (bs.getD (i + 1) defaultBlock).size }).eraseIdx (i + 1), true)
    else (bs, false)
  else (bs, false)

/-- One attempt of `_coalesce` to merge `blocks[index-1]` with `blocks[index]`
(the second `if` of the loop body): on success the previous block absorbs the
current block's size, the current entry is popped, and `index` moves down. -/
def mergePrev (bs : List MemoryBlock) (i : Nat) :
    List MemoryBlock × Nat × Bool :=
  if 0 < i then
    if (bs.getD (i - 1) defaultBlock).is_free && (bs.getD i defaultBlock).is_free then
      ((bs.set (i - 1) { bs.getD (i - 1) defaultBlock with
          size := (bs.getD (i - 1) defaultBlock).size +
            (bs.getD i defaultBlock).size }).eraseIdx i, i - 1, true)
    else (bs, i, false)
  else (bs, i, false)

/-- The `while merged:` loop of `MemoryManager._coalesce`: repeat a
merge-with-next then merge-with-previous pass until a pass merges nothing.
Each merge removes one list entry, so the list length bounds the loop. -/
def coalesceLoop (bs : List MemoryBlock) (i : Nat) : List MemoryBlock :=
  if h : ((mergeNext bs i).2 || (mergePrev (mergeNext bs i).1 i).2.2) = true then
    coalesceLoop (mergePrev (mergeNext bs i).1 i).1
      (mergePrev (mergeNext bs i).1 i).2.1
  else
    (mergePrev (mergeNext bs i).1 i).1
termination_by bs.length
decreasing_by
  have hnext : ((mergeNext bs i).1 = bs ∧ (mergeNext bs i).2 = false) ∨
      ((mergeNext bs i).1.length + 1 = bs.length ∧ (mergeNext bs i).2 = true) := by
    unfold mergeNext
    split
    · split
      · next hlt _ =>
        right
        refine ⟨?_, rfl⟩
        rw [List.length_eraseIdx]
        simp only [List.length_set]
        rw [if_pos hlt]
        omega
      · exact Or.inl ⟨rfl, rfl⟩
    · exact Or.inl ⟨rfl, rfl⟩
  have hprev : ∀ cs : List MemoryBlock,
      ((mergePrev cs i).1 = cs ∧ (mergePrev cs i).2.2 = false) ∨
        ((mergePrev cs i).1.length + 1 = cs.length ∧ (mergePrev cs i).2.2 = true) := by
    intro cs
    unfold mergePrev
    split
    · split
      · next hf =>
        right
        have hcur : (cs.getD i defaultBlock).is_free = true :=
          (Bool.and_eq_true _ _ |>.mp hf).2
        have hi : i < cs.length := by
          by_contra hge
          have hd : cs.getD i defaultBlock = defaultBlock := by
            simp [List.getD_eq_getElem?_getD,
              List.getElem?_eq_none (Nat.le_of_not_lt hge)]
          rw [hd] at hcur
          simp [defaultBlock] at hcur
        refine ⟨?_, rfl⟩
        rw [List.length_eraseIdx]
        simp only [List.length_set]
        rw [if_pos hi]
        omega
      · exact Or.inl ⟨rfl, rfl⟩
    · exact Or.inl ⟨rfl, rfl⟩
  rcases hprev (mergeNext bs i).1 with ⟨h2, h2b⟩ | ⟨h2, h2b⟩
  · rw [h2]
    rcases hnext with ⟨h1, h1b⟩ | ⟨h1, h1b⟩
    · rw [h1b, h2b] at h
      simp at h
    · omega
  · rcases hnext with ⟨h1, h1b⟩ | ⟨h1, h1b⟩
    · have hlen : (mergeNext bs i).1.length = bs.length := by rw [h1]
      omega
    · omega

/-- `MemoryManager.deallocate`: fail if the process id is not a key of
`allocated_processes`; otherwise free the first block carrying it, coalesce at
its index, and remove the dict entry. -/
def deallocate (m : MemoryManager) (pid : Int) : MemoryManager × Bool :=
  if assocHas m.allocated_processes pid then
    match findFirstIdx (fun b => b.process_id = some pid) m.blocks with
    | some i =>
        let blocks1 := m.blocks.set i (freeBlock (m.blocks.getD i defaultBlock))
        ({ m with
            blocks := coalesceLoop blocks1 i,
            allocated_processes := assocErase m.allocated_processes pid },
          true)
    | none => (m, false)
  else (m, false)

/-- State of class `PageTable`: frame count, the frame list (slots hold
`none` or a resident page), and the cumulative fault/hit counters. -/
structure PageTable where
  num_frames : Nat
  frames : List (Option Int)
  page_faults : Nat
  page_hits : Nat
deriving DecidableEq, Repr

/-- `PageTable.__init__`: `frames = [None] * num_frames`, zeroed counters. -/
def mkPageTable (n : Nat) : PageTable :=
  ⟨n, List.replicate n none, 0, 0⟩

/-- Observable outcome of one `access_page_fifo` call: hit, fault loading an
empty slot, or fault replacing the popped front page. -/
inductive FifoEvent where
  | hit
  | faultLoad (slot : Nat)
  | faultReplace (evicted : Option Int)
deriving DecidableEq, Repr

/-- `PageTable.access_page_fifo`: a resident page is a hit (frames untouched);
otherwise count a fault and either fill the first `None` slot
(`frames.index(None)`) or pop the front and append the page at the back. -/
def access_page_fifo (pt : PageTable) (page : Int) : PageTable × FifoEvent :=
  if some page ∈ pt.frames then
    ({ pt with page_hits := pt.page_hits + 1 }, .hit)
  else
    match findFirstIdx (fun o => o = none) pt.frames with
    | some idx =>
        ({ pt with
            page_faults := pt.page_faults + 1,
            frames := pt.frames.set idx (some page) }, .faultLoad idx)
    | none =>
        ({ pt with
            page_faults := pt.page_faults + 1,
            frames := pt.frames.tail ++ [some page] },
          .faultReplace (pt.frames.head?.getD none))

/-- Folding `access_page_fifo` over an access sequence, collecting the
per-access events. -/
def runFifo (pt : PageTable) (seq : List Int) : PageTable × List FifoEvent :=
  match seq with
  | [] => (pt, [])
  | p :: rest =>
      let r := access_page_fifo pt p
      let r' := runFifo r.1 rest
      (r'.1, r.2 :: r'.2)

/-- Observable outcome of one iteration of the `access_page_lru` loop. -/
inductive LruEvent where
  | hit
  | faultLoad
  | faultReplace (replaced : Int)
deriving DecidableEq, Repr

/-- One iteration of the loop body of `PageTable.access_page_lru` on its local
`frames` list: a hit moves the page to the most-recently-used end
(`remove` then `append`); a fault appends while room remains, else pops the
least recently used front element. -/
def lruStep (numFrames : Nat) (frames : List Int) (page : Int) :
    List Int × LruEvent :=
  if page ∈ frames then
    (frames.erase page ++ [page], .hit)
  else if frames.length < numFrames then
    (frames ++ [page], .faultLoad)
  else
    (frames.tail ++ [page], .faultReplace (frames.head?.getD 0))

/-- The loop of `access_page_lru`, threading the `PageTable` object through:
the method reads only `self.num_frames` and assigns no field of `self`, all
its working state (`frames`, `page_faults`) being local variables. Returns the
unchanged table, the final local frames, the local fault count, and the
per-access events. -/
def lruLoop (pt : PageTable) (frames : List Int) (faults : Nat)
    (seq : List Int) : PageTable × List Int × Nat × List LruEvent :=
  match seq with
  | [] => (pt, frames, faults, [])
  | p :: rest =>
      let r := lruStep pt.num_frames frames p
      let faults' := match r.2 with
        | .hit => faults
        | _ => faults + 1
      let rec' := lruLoop pt r.1 faults' rest
      (rec'.1, rec'.2.1, rec'.2.2.1, r.2 :: rec'.2.2.2)

/-- `PageTable.access_page_lru`: run the whole sequence on fresh local state. -/
def access_page_lru (pt : PageTable) (seq : List Int) :
    PageTable × List Int × Nat × List LruEvent :=
  lruLoop pt [] 0 seq

/-- The hit-rate value computed by `PageTable.display_stats`:
`hits / total * 100` when `total > 0`, else `0` (exact rational arithmetic in
place of Python floats). -/
def display_stats_hit_rate (pt : PageTable) : Rat :=
  if 0 < pt.page_hits + pt.page_faults then
    (pt.page_hits : Rat) / ((pt.page_hits + pt.page_faults : Nat) : Rat) * 100
  else 0

/-- Lowest-index empty slot, written from the spec's words ("load `page` into
the lowest-index empty slot"): the first index in `0..frames.length` whose slot
is empty. -/
def lowestEmptySlot (frames : List (Option Int)) : Option Nat :=
  (List.range frames.length).find? (fun j => frames.getD j (some 0) = none)

/-- FIFO page-access step as §4.4 of the spec words it: a resident page is a
hit with no reordering; otherwise a fault that loads the lowest-index empty
slot if one exists, and else treats the frame list as a fixed-size queue —
remove from the front (the evicted victim) and append the new page at the
back. -/
def fifoSpecStep (pt : PageTable) (page : Int) : PageTable × FifoEvent :=
  if some page ∈ pt.frames then
    ({ pt with page_hits := pt.page_hits + 1 }, .hit)
  else
    match lowestEmptySlot pt.frames with
    | some j =>
        ({ pt with
            page_faults := pt.page_faults + 1,
            frames := pt.frames.set j (some page) }, .faultLoad j)
    | none =>
        ({ pt with
            page_faults := pt.page_faults + 1,
            frames := pt.frames.tail ++ [some page] },
          .faultReplace (pt.frames.head?.getD none))

/-- Sum of the sizes of a block list. -/
def sumSizes : List MemoryBlock → Int
  | [] => 0
  | b :: rest => b.size + sumSizes rest

/-- Contiguity from a given address: each block starts where the previous one
ended. `chainFrom 0 bs` says the first block starts at address 0 and the blocks
tile the space without gaps or overlaps. -/
def chainFrom : Int → List MemoryBlock → Prop
  | _, [] => True
  | s, b :: rest => b.start = s ∧ chainFrom (s + b.size) rest

instance instDecChainFrom : (s : Int) → (bs : List MemoryBlock) →
    Decidable (chainFrom s bs)
  | _, [] => .isTrue trivial
  | s, b :: rest =>
      @instDecidableAnd _ _ _ (instDecChainFrom (s + b.size) rest)

/-- Two adjacent blocks are never both free (the coalescing invariant,
pairwise). -/
def notBothFree (a b : MemoryBlock) : Prop :=
  ¬(a.is_free = true ∧ b.is_free = true)

instance : DecidableRel notBothFree := fun a b => by
  unfold notBothFree
  infer_instance

/-- No two consecutive blocks of the list are both free. -/
def NoTwoFree (bs : List MemoryBlock) : Prop :=
  List.Chain' notBothFree bs

/-- The states of a `MemoryManager` reachable from a fresh manager by any
sequence of first-fit allocations, best-fit allocations and deallocations.
Request sizes are positive, per the spec contract `size > 0`
(caller-validated); process ids and deallocation targets are unconstrained. -/
inductive Reachable : MemoryManager → Prop where
  | init (total : Int) (h : 0 < total) : Reachable (mkManager total)
  | ff (m : MemoryManager) (pid size : Int) (h : Reachable m) (hs : 0 < size) :
      Reachable (allocate_first_fit m pid size).1
  | bf (m : MemoryManager) (pid size : Int) (h : Reachable m) (hs : 0 < size) :
      Reachable (allocate_best_fit m pid size).1
  | de (m : MemoryManager) (pid : Int) (h : Reachable m) :
      Reachable (deallocate m pid).1

/-- The internal invariant of a manager state: the blocks tile `[0, total)`
contiguously starting at 0, their sizes sum to `total_size`, no two adjacent
blocks are both free, all sizes are positive, and the stored `is_free` flag
agrees with the absence of an owner. -/
def MemInv (m : MemoryManager) : Prop :=
  chainFrom 0 m.blocks ∧
  sumSizes m.blocks = m.total_size ∧
  NoTwoFree m.blocks ∧
  (∀ b ∈ m.blocks, 0 < b.size) ∧
  (∀ b ∈ m.blocks, b.is_free = b.process_id.isNone)

instance : (m : MemoryManager) → Decidable (MemInv m) := fun m => by
  unfold MemInv NoTwoFree
  infer_instance

theorem getD_at {α : Type} (pre : List α) (c : α) (post : List α) (d : α) :
    (pre ++ c :: post).getD pre.length d = c := by
  induction pre with
  | nil => rfl
  | cons x rest ih => simpa using ih

theorem getD_at_succ {α : Type} (pre : List α) (c n : α) (post : List α) (d : α) :
    (pre ++ c :: n :: post).getD (pre.length + 1) d = n := by
  have h := getD_at (pre ++ [c]) n post d
  simpa [List.append_assoc] using h

theorem set_at {α : Type} (pre : List α) (c c' : α) (post : List α) :
    (pre ++ c :: post).set pre.length c' = pre ++ c' :: post := by
  induction pre with
  | nil => rfl
  | cons x rest ih => simpa using ih

theorem erase_at {α : Type} (pre : List α) (c : α) (post : List α) :
    (pre ++ c :: post).eraseIdx pre.length = pre ++ post := by
  induction pre with
  | nil => rfl
  | cons x rest ih => simpa using ih

theorem erase_at_succ {α : Type} (pre : List α) (c n : α) (post : List α) :
    (pre ++ c :: n :: post).eraseIdx (pre.length + 1) = pre ++ c :: post := by
  have h := erase_at (pre ++ [c]) n post
  simpa [List.append_assoc] using h

theorem take_at {α : Type} (pre : List α) (c : α) (post : List α) :
    (pre ++ c :: post).take pre.length = pre := by
  induction pre with
  | nil => rfl
  | cons x rest ih => simpa using ih

theorem drop_at_succ {α : Type} (pre : List α) (c : α) (post : List α) :
    (pre ++ c :: post).drop (pre.length + 1) = post := by
  induction pre with
  | nil => rfl
  | cons x rest ih => simpa using ih

theorem findFirstIdx_eq_none {α : Type} (p : α → Bool) (l : List α) :
    findFirstIdx p l = none ↔ ∀ x ∈ l, p x = false := by
  induction l with
  | nil => simp [findFirstIdx]
  | cons x rest ih =>
      have hfx : p x = true ∨ p x = false := by cases p x <;> simp
      unfold findFirstIdx
      rcases hfx with hx | hx
      · simp [hx]
      · rw [if_neg (by simp [hx]), Option.map_eq_none', ih]
        constructor
        · intro h y hy
          rcases List.mem_cons.mp hy with rfl | hmem
          · exact hx
          · exact h y hmem
        · intro h y hy
          exact h y (List.mem_cons_of_mem _ hy)

theorem findFirstIdx_decomp {α : Type} (p : α → Bool) (l : List α) (i : Nat)
    (h : findFirstIdx p l = some i) :
    ∃ pre x post, l = pre ++ x :: post ∧ pre.length = i ∧ p x = true ∧
      ∀ y ∈ pre, p y = false := by
  induction l generalizing i with
  | nil => simp [findFirstIdx] at h
  | cons a rest ih =>
      unfold findFirstIdx at h
      by_cases ha : p a = true
      · rw [if_pos ha] at h
        obtain rfl : (0 : Nat) = i := Option.some_injective _ h
        exact ⟨[], a, rest, rfl, rfl, ha, by simp⟩
      · rw [if_neg ha] at h
        obtain ⟨j, hj, rfl⟩ := Option.map_eq_some'.mp h
        obtain ⟨pre, x, post, hdecomp, hlen, hx, hpre⟩ := ih j hj
        refine ⟨a :: pre, x, post, by rw [hdecomp]; rfl, by simp [hlen], hx, ?_⟩
        intro y hy
        rcases List.mem_cons.mp hy with rfl | hmem
        · exact Bool.not_eq_true _ |>.mp ha
        · exact hpre y hmem

theorem findFirstIdx_isSome {α : Type} (p : α → Bool) (l : List α) (x : α)
    (hx : x ∈ l) (hpx : p x = true) : ∃ i, findFirstIdx p l = some i := by
  induction l with
  | nil => simp at hx
  | cons a rest ih =>
      unfold findFirstIdx
      by_cases ha : p a = true
      · exact ⟨0, by rw [if_pos ha]⟩
      · rcases List.mem_cons.mp hx with rfl | hmem
        · exact absurd hpx ha
        · obtain ⟨j, hj⟩ := ih hmem
          exact ⟨j + 1, by rw [if_neg ha, hj]; rfl⟩

theorem lowestEmptySlot_eq (frames : List (Option Int)) :
    lowestEmptySlot frames = findFirstIdx (fun o => o = none) frames := by
  induction frames with
  | nil => rfl
  | cons o rest ih =>
      unfold lowestEmptySlot findFirstIdx
      rw [List.length_cons, List.range_succ_eq_map, List.find?_cons]
      cases o with
      | none => simp
      | some v =>
          have hp : decide ((some v : Option Int) = none) = false := by simp
          simp only [List.getD_cons_zero, List.getD_cons_succ, hp]
          rw [List.find?_map]
          have hfun :
              ((fun j => decide (((some v) :: rest).getD j (some 0) = none)) ∘
                Nat.succ) = fun j => decide (rest.getD j (some 0) = none) := by
            funext j
            simp
          rw [hfun]
          unfold lowestEmptySlot at ih
          rw [ih]
          rcases findFirstIdx (fun o => o = none) rest with _ | j <;> simp

theorem access_page_fifo_refines (pt : PageTable) (page : Int) :
    access_page_fifo pt page = fifoSpecStep pt page := by
  unfold access_page_fifo fifoSpecStep
  rw [lowestEmptySlot_eq]

theorem access_page_fifo_hit_iff (pt : PageTable) (page : Int) :
    (access_page_fifo pt page).2 = FifoEvent.hit ↔ some page ∈ pt.frames := by
  unfold access_page_fifo
  by_cases h : some page ∈ pt.frames
  · simp [h]
  · rcases hidx : findFirstIdx (fun o => o = none) pt.frames with _ | idx <;>
      simp [h, hidx]

theorem access_page_fifo_frames_on_hit (pt : PageTable) (page : Int) :
    (access_page_fifo pt page).2 ≠ FifoEvent.hit ∨
      (access_page_fifo pt page).1.frames = pt.frames := by
  by_cases h : some page ∈ pt.frames
  · right
    unfold access_page_fifo
    rw [if_pos h]
  · left
    exact fun hhit => h ((access_page_fifo_hit_iff pt page).mp hhit)

/-- C4: the FIFO page-access operation classifies an access as a hit exactly
when the page is resident, leaving the frames unchanged on a hit; on a fault it
loads the lowest-index empty slot when one exists, and with all slots occupied
it behaves as a fixed-size queue (evict the front, append at the back) — the
refinement to `fifoSpecStep` written from the spec's words captures this; and
on the literal sequence [1,2,3,4,1,2,5,1,2,3,4,5] with 3 frames it produces
exactly 9 faults and 3 hits, the hits being the accesses of 1 and 2 after
loading 5 and the final access of 5. -/
theorem fifo_queue_replacement_spec :
    (∀ (pt : PageTable) (page : Int),
        access_page_fifo pt page = fifoSpecStep pt page) ∧
    (∀ (pt : PageTable) (page : Int),
        ((access_page_fifo pt page).2 = FifoEvent.hit ↔ some page ∈ pt.frames)) ∧
    (∀ (pt : PageTable) (page : Int),
        (access_page_fifo pt page).2 ≠ FifoEvent.hit ∨
          (access_page_fifo pt page).1.frames = pt.frames) ∧
    (runFifo (mkPageTable 3) [1, 2, 3, 4, 1, 2, 5, 1, 2, 3, 4, 5]).2 =
      [FifoEvent.faultLoad 0, FifoEvent.faultLoad 1, FifoEvent.faultLoad 2,
       FifoEvent.faultReplace (some 1), FifoEvent.faultReplace (some 2),
       FifoEvent.faultReplace (some 3), FifoEvent.faultReplace (some 4),
       FifoEvent.hit, FifoEvent.hit, FifoEvent.faultReplace (some 1),
       FifoEvent.faultReplace (some 2), FifoEvent.hit] ∧
    (runFifo (mkPageTable 3) [1, 2, 3, 4, 1, 2, 5, 1, 2, 3, 4, 5]).1.page_faults = 9 ∧
    (runFifo (mkPageTable 3) [1, 2, 3, 4, 1, 2, 5, 1, 2, 3, 4, 5]).1.page_hits = 3 :=
  ⟨access_page_fifo_refines, access_page_fifo_hit_iff,
    access_page_fifo_frames_on_hit, by decide, by decide, by decide⟩

/-- C8: on [1,2,3,1,4] with 3 frames, LRU evicts page 2 when loading page 4
while FIFO evicts page 1; the two policies' eviction results differ. -/
theorem lru_fifo_divergence :
    (access_page_lru (mkPageTable 3) [1, 2, 3, 1, 4]).2.2.2 =
      [LruEvent.faultLoad, LruEvent.faultLoad, LruEvent.faultLoad,
       LruEvent.hit, LruEvent.faultReplace 2] ∧
    (runFifo (mkPageTable 3) [1, 2, 3, 1, 4]).2 =
      [FifoEvent.faultLoad 0, FifoEvent.faultLoad 1, FifoEvent.faultLoad 2,
       FifoEvent.hit, FifoEvent.faultReplace (some 1)] ∧
    (2 : Int) ≠ 1 :=
  ⟨by decide, by decide, by decide⟩

/-- C9: the reported paging hit rate is the ratio `hits / (hits + faults)`
(expressed as a percentage, hence the factor 100), and the division is guarded:
the rate is 0 when no accesses have been made. -/
theorem hit_rate_guarded_ratio (pt : PageTable) :
    display_stats_hit_rate pt =
      100 * (if pt.page_hits + pt.page_faults = 0 then 0
             else (pt.page_hits : Rat) /
               ((pt.page_hits : Rat) + (pt.page_faults : Rat))) := by
  unfold display_stats_hit_rate
  by_cases h : pt.page_hits + pt.page_faults = 0
  · rw [if_neg (by omega), if_pos h]
    norm_num
  · rw [if_pos (by omega), if_neg h]
    have hcast : ((pt.page_hits + pt.page_faults : Nat) : Rat) =
        (pt.page_hits : Rat) + (pt.page_faults : Rat) := by push_cast; ring
    rw [hcast]
    ring

theorem lruLoop_fst (pt : PageTable) (frames : List Int) (faults : Nat)
    (seq : List Int) : (lruLoop pt frames faults seq).1 = pt := by
  induction seq generalizing frames faults with
  | nil => rfl
  | cons p rest ih => exact ih _ _

/-- C10: the LRU access routine works entirely on local state; it leaves every
field of the `PageTable` unchanged, so statistics reported afterwards are
unaffected by the LRU run. -/
theorem lru_run_leaves_table_unchanged (pt : PageTable) (seq : List Int) :
    (access_page_lru pt seq).1 = pt ∧
    (access_page_lru pt seq).1.frames = pt.frames ∧
    (access_page_lru pt seq).1.page_hits = pt.page_hits ∧
    (access_page_lru pt seq).1.page_faults = pt.page_faults ∧
    display_stats_hit_rate (access_page_lru pt seq).1 =
      display_stats_hit_rate pt := by
  have h : (access_page_lru pt seq).1 = pt := lruLoop_fst pt [] 0 seq
  exact ⟨h, by rw [h], by rw [h], by rw [h], by rw [h]⟩

theorem bestFitLoop_none (size : Int) (bs : List MemoryBlock) (i : Nat)
    (h : ∀ x ∈ bs, ¬(x.is_free = true ∧ size ≤ x.size)) :
    bestFitLoop size bs i none = none := by
  induction bs generalizing i with
  | nil => rfl
  | cons b rest ih =>
      have hb := h b (List.mem_cons_self _ _)
      have htake : (b.is_free && decide (size ≤ b.size) && true) = false := by
        cases hf : b.is_free with
        | false => simp
        | true =>
            have hns : ¬(size ≤ b.size) := fun hle => hb ⟨hf, hle⟩
            simp [hns]
      show bestFitLoop size rest (i + 1)
        (if (b.is_free && decide (size ≤ b.size) && true) = true
         then some (i, b.size) else none) = none
      rw [htake]
      simp only [Bool.false_eq_true, if_false]
      exact ih (i + 1) (fun x hx => h x (List.mem_cons_of_mem _ hx))

/-- C5: when no free block is at least as large as the request, both
allocation strategies return the failure result and leave the entire manager
state exactly as it was. -/
theorem insufficient_memory_no_mutation (m : MemoryManager) (pid size : Int)
    (h : ∀ b ∈ m.blocks, ¬(b.is_free = true ∧ size ≤ b.size)) :
    allocate_first_fit m pid size = (m, none) ∧
      allocate_best_fit m pid size = (m, none) := by
  constructor
  · unfold allocate_first_fit
    have hfind : findFirstIdx (fun b => b.is_free && decide (size ≤ b.size))
        m.blocks = none := by
      rw [findFirstIdx_eq_none]
      intro x hx
      have hx' := h x hx
      cases hf : x.is_free with
      | false => simp
      | true =>
          have hns : ¬(size ≤ x.size) := fun hle => hx' ⟨hf, hle⟩
          simp [hns]
    rw [hfind]
  · unfold allocate_best_fit
    rw [bestFitLoop_none size m.blocks 0 h]

/-- Witness for C5: a fully allocated 4-unit space rejects a 1-unit request
under both strategies without any mutation. -/
theorem insufficient_memory_no_mutation_witness :
    allocate_first_fit (allocate_first_fit (mkManager 4) 1 4).1 2 1 =
        ((allocate_first_fit (mkManager 4) 1 4).1, none) ∧
      allocate_best_fit (allocate_first_fit (mkManager 4) 1 4).1 2 1 =
        ((allocate_first_fit (mkManager 4) 1 4).1, none) :=
  insufficient_memory_no_mutation (allocate_first_fit (mkManager 4) 1 4).1 2 1
    (by decide)

/-- C6: deallocating a process id that is not a key of `allocated_processes`
fails with the not-found result and leaves the whole state (block list and
index) unchanged. -/
theorem deallocate_not_found_no_mutation (m : MemoryManager) (pid : Int)
    (h : assocHas m.allocated_processes pid = false) :
    deallocate m pid = (m, false) := by
  unfold deallocate
  rw [h]
  simp

/-- Witness for C6: deallocating an unknown process id on a fresh manager. -/
theorem deallocate_not_found_no_mutation_witness :
    deallocate (mkManager 4) 7 = (mkManager 4, false) :=
  deallocate_not_found_no_mutation (mkManager 4) 7 (by decide)

theorem placeBlock_eq (m : MemoryManager) (i : Nat) (pid size : Int) :
    placeBlock m i pid size =
      ({ m with
          blocks :=
            if size < (m.blocks.getD i defaultBlock).size then
              m.blocks.take i ++
                [mkBlock (m.blocks.getD i defaultBlock).start size (some pid),
                 mkBlock ((m.blocks.getD i defaultBlock).start + size)
                   ((m.blocks.getD i defaultBlock).size - size) none] ++
                m.blocks.drop (i + 1)
            else
              m.blocks.set i
                (mkBlock (m.blocks.getD i defaultBlock).start size (some pid)),
          allocated_processes := assocSet m.allocated_processes pid
            (mkBlock (m.blocks.getD i defaultBlock).start size (some pid)) },
        some (m.blocks.getD i defaultBlock).start) := rfl

theorem placeBlock_decomp (m : MemoryManager) (pre : List MemoryBlock)
    (c : MemoryBlock) (post : List MemoryBlock) (pid size : Int)
    (hdec : m.blocks = pre ++ c :: post) :
    placeBlock m pre.length pid size =
      ({ m with
          blocks :=
            if size < c.size then
              pre ++ mkBlock c.start size (some pid) ::
                mkBlock (c.start + size) (c.size - size) none :: post
            else
              pre ++ mkBlock c.start size (some pid) :: post,
          allocated_processes := assocSet m.allocated_processes pid
            (mkBlock c.start size (some pid)) },
        some c.start) := by
  rw [placeBlock_eq, hdec, getD_at, take_at, drop_at_succ, set_at]
  by_cases hlt : size < c.size
  · rw [if_pos hlt, if_pos hlt]
    simp [List.append_assoc]
  · rw [if_neg hlt, if_neg hlt]

/-- C7 counterexample: on a fresh 16-unit manager, an allocate call of size 0
(a non-positive size) is not rejected: it reports success with address 0 and
mutates both the block list (splitting off a zero-size owned block) and the
allocation index. -/
theorem invalid_request_counterexample :
    (allocate_first_fit (mkManager 16) 1 0).2 = some 0 ∧
    (allocate_first_fit (mkManager 16) 1 0).1.blocks ≠ (mkManager 16).blocks ∧
    (allocate_first_fit (mkManager 16) 1 0).1.allocated_processes ≠
      (mkManager 16).allocated_processes := by
  decide

/-- C7 amended: the allocator performs no request validation and there is no
InvalidRequest failure. For any process id — including one that already holds
a block — and any non-positive size, as long as some free block of nonnegative
size exists the call goes through the normal placement path: it reports
success and mutates the block list. -/
theorem allocate_no_validation (m : MemoryManager) (pid size : Int)
    (hsz : size ≤ 0) (b : MemoryBlock) (hb : b ∈ m.blocks)
    (hfree : b.is_free = true) (hbs : 0 ≤ b.size) :
    ∃ a m', allocate_first_fit m pid size = (m', some a) ∧
      m'.blocks ≠ m.blocks := by
  have hpb : (fun x : MemoryBlock => x.is_free && decide (size ≤ x.size)) b = true := by
    simp only [hfree, Bool.true_and, decide_eq_true_eq]
    exact le_trans hsz hbs
  obtain ⟨i, hi⟩ := findFirstIdx_isSome
    (fun x : MemoryBlock => x.is_free && decide (size ≤ x.size)) m.blocks b hb hpb
  obtain ⟨pre, c, post, hdec, hlen, hc, hpre⟩ := findFirstIdx_decomp _ _ _ hi
  have hcfree : c.is_free = true := (Bool.and_eq_true _ _ |>.mp hc).1
  have hcsize : size ≤ c.size :=
    of_decide_eq_true (Bool.and_eq_true _ _ |>.mp hc).2
  subst hlen
  unfold allocate_first_fit
  rw [hi]
  show ∃ a m', placeBlock m pre.length pid size = (m', some a) ∧
    m'.blocks ≠ m.blocks
  rw [placeBlock_decomp m pre c post pid size hdec]
  by_cases hlt : size < c.size
  · rw [if_pos hlt]
    refine ⟨c.start, _, rfl, ?_⟩
    intro heq
    have hlenEq := congrArg List.length heq
    rw [hdec] at hlenEq
    simp at hlenEq
  · rw [if_neg hlt]
    refine ⟨c.start, _, rfl, ?_⟩
    intro heq
    rw [hdec] at heq
    have hmid : mkBlock c.start size (some pid) :: post = c :: post :=
      List.append_cancel_left heq
    have hcc : mkBlock c.start size (some pid) = c := (List.cons.injEq _ _ _ _ ▸ hmid).1
    have : (false : Bool) = true := by
      have h1 : (mkBlock c.start size (some pid)).is_free = c.is_free := by rw [hcc]
      simpa [mkBlock, hcfree] using h1
    exact absurd this (by simp)

/-- Witness for C7's amended theorem: on a manager where process 1 already
holds a block, a second allocate for process 1 with size 0 still succeeds and
mutates the block list — no InvalidRequest rejection exists. -/
theorem allocate_no_validation_witness :
    ∃ a m', allocate_first_fit (allocate_first_fit (mkManager 16) 1 4).1 1 0 =
        (m', some a) ∧
      m'.blocks ≠ (allocate_first_fit (mkManager 16) 1 4).1.blocks :=
  allocate_no_validation (allocate_first_fit (mkManager 16) 1 4).1 1 0
    (by decide) (mkBlock 4 12 none) (by decide) (by decide) (by decide)

theorem bestFitLoop_spec (size : Int) (bs : List MemoryBlock) :
    ∀ (i : Nat) (best : Option (Nat × Int)) (j : Nat) (sz : Int),
      bestFitLoop size bs i best = some (j, sz) →
      (best = some (j, sz) ∧
        ∀ x ∈ bs, x.is_free = true → size ≤ x.size → sz ≤ x.size) ∨
      (∃ u x v, bs = u ++ x :: v ∧ j = i + u.length ∧ x.is_free = true ∧
        size ≤ x.size ∧ sz = x.size ∧
        (∀ q : Nat × Int, best = some q → x.size < q.2) ∧
        (∀ y ∈ u, y.is_free = true → size ≤ y.size → x.size < y.size) ∧
        (∀ y ∈ v, y.is_free = true → size ≤ y.size → x.size ≤ y.size)) := by
  induction bs with
  | nil =>
      intro i best j sz h
      exact Or.inl ⟨h, by simp⟩
  | cons b rest ih =>
      intro i best j sz h
      rcases best with _ | ⟨k, bsz⟩
      · replace h : bestFitLoop size rest (i + 1)
            (if (b.is_free && decide (size ≤ b.size) && true) = true
             then some (i, b.size) else none) = some (j, sz) := h
        by_cases hcand : (b.is_free && decide (size ≤ b.size)) = true
        · rw [if_pos (by simp [hcand])] at h
          have hf : b.is_free = true := ((Bool.and_eq_true _ _).mp hcand).1
          have hs : size ≤ b.size :=
            of_decide_eq_true ((Bool.and_eq_true _ _).mp hcand).2
          rcases ih (i + 1) (some (i, b.size)) j sz h with ⟨heq, hall⟩ |
            ⟨u, x, v, hu, hj, hxf, hxs, hsz, hbest, hucond, hvcond⟩
          · obtain ⟨rfl, rfl⟩ : i = j ∧ b.size = sz := by
              have := Option.some_injective _ heq
              exact ⟨congrArg Prod.fst this, congrArg Prod.snd this⟩
            refine Or.inr ⟨[], b, rest, rfl, by simp, hf, hs, rfl, ?_, ?_, ?_⟩
            · intro q hq
              simp at hq
            · intro y hy
              simp at hy
            · exact hall
          · have hxb : x.size < b.size := by
              have := hbest (i, b.size) rfl
              simpa using this
            refine Or.inr ⟨b :: u, x, v, by rw [hu]; rfl, ?_, hxf, hxs, hsz, ?_, ?_, hvcond⟩
            · simp only [List.length_cons]
              omega
            · intro q hq
              simp at hq
            · intro y hy
              rcases List.mem_cons.mp hy with rfl | hmem
              · intro _ _
                exact hxb
              · exact hucond y hmem
        · rw [if_neg (by simp [hcand])] at h
          rcases ih (i + 1) none j sz h with ⟨heq, _⟩ |
            ⟨u, x, v, hu, hj, hxf, hxs, hsz, _, hucond, hvcond⟩
          · exact absurd heq (by simp)
          · refine Or.inr ⟨b :: u, x, v, by rw [hu]; rfl, ?_, hxf, hxs, hsz, ?_, ?_, hvcond⟩
            · simp only [List.length_cons]
              omega
            · intro q hq
              simp at hq
            · intro y hy
              rcases List.mem_cons.mp hy with rfl | hmem
              · intro hyf hys
                have : (y.is_free && decide (size ≤ y.size)) = true := by
                  rw [hyf]
                  simp [hys]
                exact absurd this hcand
              · exact hucond y hmem
      · replace h : bestFitLoop size rest (i + 1)
            (if (b.is_free && decide (size ≤ b.size) && decide (b.size < bsz)) = true
             then some (i, b.size) else some (k, bsz)) = some (j, sz) := h
        by_cases hcand : (b.is_free && decide (size ≤ b.size) &&
            decide (b.size < bsz)) = true
        · rw [if_pos hcand] at h
          have hf : b.is_free = true :=
            ((Bool.and_eq_true _ _).mp ((Bool.and_eq_true _ _).mp hcand).1).1
          have hs : size ≤ b.size := of_decide_eq_true
            ((Bool.and_eq_true _ _).mp ((Bool.and_eq_true _ _).mp hcand).1).2
          have hlt : b.size < bsz :=
            of_decide_eq_true ((Bool.and_eq_true _ _).mp hcand).2
          rcases ih (i + 1) (some (i, b.size)) j sz h with ⟨heq, hall⟩ |
            ⟨u, x, v, hu, hj, hxf, hxs, hsz, hbest, hucond, hvcond⟩
          · obtain ⟨rfl, rfl⟩ : i = j ∧ b.size = sz := by
              have := Option.some_injective _ heq
              exact ⟨congrArg Prod.fst this, congrArg Prod.snd this⟩
            refine Or.inr ⟨[], b, rest, rfl, by simp, hf, hs, rfl, ?_, ?_, ?_⟩
            · intro q hq
              obtain rfl := Option.some_injective _ hq
              exact hlt
            · intro y hy
              simp at hy
            · exact hall
          · have hxb : x.size < b.size := by
              have := hbest (i, b.size) rfl
              simpa using this
            refine Or.inr ⟨b :: u, x, v, by rw [hu]; rfl, ?_, hxf, hxs, hsz, ?_, ?_, hvcond⟩
            · simp only [List.length_cons]
              omega
            · intro q hq
              obtain rfl := Option.some_injective _ hq
              exact lt_trans hxb hlt
            · intro y hy
              rcases List.mem_cons.mp hy with rfl | hmem
              · intro _ _
                exact hxb
              · exact hucond y hmem
        · rw [if_neg hcand] at h
          have hbnot : b.is_free = true → size ≤ b.size → bsz ≤ b.size := by
            intro hf hs
            by_contra hnb
            exact hcand (by simp [hf, hs, lt_of_not_le hnb])
          rcases ih (i + 1) (some (k, bsz)) j sz h with ⟨heq, hall⟩ |
            ⟨u, x, v, hu, hj, hxf, hxs, hsz, hbest, hucond, hvcond⟩
          · left
            refine ⟨heq, ?_⟩
            obtain ⟨rfl, rfl⟩ : k = j ∧ bsz = sz := by
              have := Option.some_injective _ heq
              exact ⟨congrArg Prod.fst this, congrArg Prod.snd this⟩
            intro y hy hyf hys
            rcases List.mem_cons.mp hy with rfl | hmem
            · exact hbnot hyf hys
            · exact hall y hmem hyf hys
          · have hxlt : x.size < bsz := by
              have := hbest (k, bsz) rfl
              simpa using this
            refine Or.inr ⟨b :: u, x, v, by rw [hu]; rfl, ?_, hxf, hxs, hsz, ?_, ?_, hvcond⟩
            · simp only [List.length_cons]
              omega
            · intro q hq
              obtain rfl := Option.some_injective _ hq
              exact hxlt
            · intro y hy
              rcases List.mem_cons.mp hy with rfl | hmem
              · intro hyf hys
                exact lt_of_lt_of_le hxlt (hbnot hyf hys)
              · exact hucond y hmem

/-- C2: whenever first-fit allocation succeeds, the chosen block is the first
free block (in block-list order, which is ascending start order) whose size is
at least the request; an exactly-fitting block is converted in place to an
owned block, a larger one is split into an owned prefix of exactly the
requested size followed immediately by the free remainder inserted at the
split point; the returned address is the chosen block's start. -/
theorem first_fit_placement (m : MemoryManager) (pid size : Int)
    (m' : MemoryManager) (a : Int)
    (h : allocate_first_fit m pid size = (m', some a)) :
    ∃ pre c post, m.blocks = pre ++ c :: post ∧
      c.is_free = true ∧ size ≤ c.size ∧
      (∀ x ∈ pre, ¬(x.is_free = true ∧ size ≤ x.size)) ∧
      a = c.start ∧
      m'.blocks =
        (if c.size = size then
          pre ++ mkBlock c.start size (some pid) :: post
         else
          pre ++ mkBlock c.start size (some pid) ::
            mkBlock (c.start + size) (c.size - size) none :: post) := by
  unfold allocate_first_fit at h
  rcases hfind : findFirstIdx (fun b => b.is_free && decide (size ≤ b.size))
      m.blocks with _ | i
  · rw [hfind] at h
    exact absurd (congrArg Prod.snd h) (by simp)
  · rw [hfind] at h
    replace h : placeBlock m i pid size = (m', some a) := h
    obtain ⟨pre, c, post, hdec, hlen, hc, hpre⟩ :=
      findFirstIdx_decomp _ _ _ hfind
    subst hlen
    rw [placeBlock_decomp m pre c post pid size hdec] at h
    injection h with hm' ha
    have hcfree : c.is_free = true := ((Bool.and_eq_true _ _).mp hc).1
    have hcsize : size ≤ c.size :=
      of_decide_eq_true ((Bool.and_eq_true _ _).mp hc).2
    refine ⟨pre, c, post, hdec, hcfree, hcsize, ?_, ?_, ?_⟩
    · intro x hx ⟨hxf, hxs⟩
      have := hpre x hx
      rw [hxf] at this
      simp [hxs] at this
    · exact (Option.some_injective _ ha).symm
    · rw [← hm']
      dsimp only
      by_cases hq : c.size = size
      · rw [if_pos hq, if_neg (by omega)]
      · rw [if_neg hq, if_pos (by omega)]

/-- Witness for C2: a successful first-fit allocation on a fresh manager. -/
theorem first_fit_placement_witness :
    ∃ pre c post, (mkManager 10).blocks = pre ++ c :: post ∧
      c.is_free = true ∧ (4 : Int) ≤ c.size ∧
      (∀ x ∈ pre, ¬(x.is_free = true ∧ (4 : Int) ≤ x.size)) ∧
      (0 : Int) = c.start ∧
      (allocate_first_fit (mkManager 10) 2 4).1.blocks =
        (if c.size = 4 then
          pre ++ mkBlock c.start 4 (some 2) :: post
         else
          pre ++ mkBlock c.start 4 (some 2) ::
            mkBlock (c.start + 4) (c.size - 4) none :: post) :=
  first_fit_placement (mkManager 10) 2 4
    (allocate_first_fit (mkManager 10) 2 4).1 0 (by decide)

/-- C3: whenever best-fit allocation succeeds, the chosen block is free and
large enough; all earlier free-and-fitting blocks are strictly larger and all
later free-and-fitting blocks are at least as large (smallest size, ties
broken by the first encountered, i.e. lowest start); placement follows the
same convert-in-place-or-split rule as first-fit and the returned address is
the chosen block's start. -/
theorem best_fit_placement (m : MemoryManager) (pid size : Int)
    (m' : MemoryManager) (a : Int)
    (h : allocate_best_fit m pid size = (m', some a)) :
    ∃ pre c post, m.blocks = pre ++ c :: post ∧
      c.is_free = true ∧ size ≤ c.size ∧
      (∀ x ∈ pre, x.is_free = true → size ≤ x.size → c.size < x.size) ∧
      (∀ x ∈ post, x.is_free = true → size ≤ x.size → c.size ≤ x.size) ∧
      a = c.start ∧
      m'.blocks =
        (if c.size = size then
          pre ++ mkBlock c.start size (some pid) :: post
         else
          pre ++ mkBlock c.start size (some pid) ::
            mkBlock (c.start + size) (c.size - size) none :: post) := by
  unfold allocate_best_fit at h
  rcases hfind : bestFitLoop size m.blocks 0 none with _ | ⟨i, bsz⟩
  · rw [hfind] at h
    exact absurd (congrArg Prod.snd h) (by simp)
  · rw [hfind] at h
    replace h : placeBlock m i pid size = (m', some a) := h
    rcases bestFitLoop_spec size m.blocks 0 none i bsz hfind with ⟨heq, _⟩ |
      ⟨u, c, v, hu, hj, hcf, hcs, _, _, hucond, hvcond⟩
    · exact absurd heq (by simp)
    · have hilen : i = u.length := by omega
      subst hilen
      rw [placeBlock_decomp m u c v pid size hu] at h
      injection h with hm' ha
      refine ⟨u, c, v, hu, hcf, hcs, hucond, hvcond,
        (Option.some_injective _ ha).symm, ?_⟩
      rw [← hm']
      dsimp only
      by_cases hq : c.size = size
      · rw [if_pos hq, if_neg (by omega)]
      · rw [if_neg hq, if_pos (by omega)]

/-- Witness for C3: best-fit on a manager with free gaps of sizes 6 (at 0) and
3 (at 13): a request of 2 is placed in the smaller 3-unit gap at address 13. -/
theorem best_fit_placement_witness :
    ∃ pre c post,
      (MemoryManager.mk 16
        [mkBlock 0 6 none, mkBlock 6 7 (some 2), mkBlock 13 3 none]
        [(2, mkBlock 6 7 (some 2))]).blocks = pre ++ c :: post ∧
      c.is_free = true ∧ (2 : Int) ≤ c.size ∧
      (∀ x ∈ pre, x.is_free = true → (2 : Int) ≤ x.size → c.size < x.size) ∧
      (∀ x ∈ post, x.is_free = true → (2 : Int) ≤ x.size → c.size ≤ x.size) ∧
      (13 : Int) = c.start ∧
      (allocate_best_fit (MemoryManager.mk 16
          [mkBlock 0 6 none, mkBlock 6 7 (some 2), mkBlock 13 3 none]
          [(2, mkBlock 6 7 (some 2))]) 5 2).1.blocks =
        (if c.size = 2 then
          pre ++ mkBlock c.start 2 (some 5) :: post
         else
          pre ++ mkBlock c.start 2 (some 5) ::
            mkBlock (c.start + 2) (c.size - 2) none :: post) :=
  best_fit_placement (MemoryManager.mk 16
      [mkBlock 0 6 none, mkBlock 6 7 (some 2), mkBlock 13 3 none]
      [(2, mkBlock 6 7 (some 2))]) 5 2 _ 13 (by decide)

theorem sumSizes_append (xs ys : List MemoryBlock) :
    sumSizes (xs ++ ys) = sumSizes xs + sumSizes ys := by
  induction xs with
  | nil => simp [sumSizes]
  | cons b rest ih => simp [sumSizes, ih, add_assoc]

theorem chainFrom_append (s : Int) (xs ys : List MemoryBlock) :
    chainFrom s (xs ++ ys) ↔
      chainFrom s xs ∧ chainFrom (s + sumSizes xs) ys := by
  induction xs generalizing s with
  | nil =>
      simp only [List.nil_append]
      constructor
      · intro h
        exact ⟨trivial, by simpa [sumSizes] using h⟩
      · intro h
        simpa [sumSizes] using h.2
  | cons b rest ih =>
      constructor
      · rintro ⟨hb, htail⟩
        have h2 := (ih (s + b.size)).mp htail
        refine ⟨⟨hb, h2.1⟩, ?_⟩
        have heq : s + sumSizes (b :: rest) = s + b.size + sumSizes rest := by
          show s + (b.size + sumSizes rest) = s + b.size + sumSizes rest
          ring
        rw [heq]
        exact h2.2
      · rintro ⟨⟨hb, h1⟩, h2⟩
        refine ⟨hb, (ih (s + b.size)).mpr ⟨h1, ?_⟩⟩
        have heq : s + sumSizes (b :: rest) = s + b.size + sumSizes rest := by
          show s + (b.size + sumSizes rest) = s + b.size + sumSizes rest
          ring
        rw [← heq]
        exact h2

theorem coalesceLoop_eq (bs : List MemoryBlock) (i : Nat) :
    coalesceLoop bs i =
      if ((mergeNext bs i).2 || (mergePrev (mergeNext bs i).1 i).2.2) = true then
        coalesceLoop (mergePrev (mergeNext bs i).1 i).1
          (mergePrev (mergeNext bs i).1 i).2.1
      else (mergePrev (mergeNext bs i).1 i).1 := by
  rw [coalesceLoop, dite_eq_ite]

theorem mergeNext_eval (pre : List MemoryBlock) (c n : MemoryBlock)
    (post : List MemoryBlock) :
    mergeNext (pre ++ c :: n :: post) pre.length =
      if (c.is_free && n.is_free) = true then
        (pre ++ { c with size := c.size + n.size } :: post, true)
      else (pre ++ c :: n :: post, false) := by
  unfold mergeNext
  have hlen : pre.length + 1 < (pre ++ c :: n :: post).length := by
    simp [List.length_append]
  rw [if_pos hlen, getD_at, getD_at_succ]
  by_cases hf : (c.is_free && n.is_free) = true
  · rw [if_pos hf, if_pos hf, set_at, erase_at_succ]
  · rw [if_neg hf, if_neg hf]

theorem mergeNext_at_last (pre : List MemoryBlock) (c : MemoryBlock) :
    mergeNext (pre ++ [c]) pre.length = (pre ++ [c], false) := by
  unfold mergeNext
  rw [if_neg (by simp [List.length_append])]

theorem mergePrev_at_zero (bs : List MemoryBlock) :
    mergePrev bs 0 = (bs, 0, false) := by
  unfold mergePrev
  rw [if_neg (by omega)]

theorem mergePrev_eval (pre : List MemoryBlock) (p c : MemoryBlock)
    (post : List MemoryBlock) :
    mergePrev (pre ++ p :: c :: post) (pre.length + 1) =
      if (p.is_free && c.is_free) = true then
        (pre ++ { p with size := p.size + c.size } :: post, pre.length, true)
      else (pre ++ p :: c :: post, pre.length + 1, false) := by
  unfold mergePrev
  rw [if_pos (by omega)]
  have h1 : pre.length + 1 - 1 = pre.length := by omega
  rw [h1, getD_at, getD_at_succ]
  by_cases hf : (p.is_free && c.is_free) = true
  · rw [if_pos hf, if_pos hf, set_at, erase_at_succ]
  · rw [if_neg hf, if_neg hf]

theorem concat_cons_shape {α : Type} (pre1 : List α) (p c : α) (post : List α) :
    (pre1 ++ [p]) ++ c :: post = pre1 ++ p :: c :: post := by
  simp

theorem coalesce_none (pre : List MemoryBlock) (c : MemoryBlock)
    (post : List MemoryBlock)
    (hL : ∀ q ∈ pre.getLast?, q.is_free = false)
    (hR : ∀ q ∈ post.head?, q.is_free = false) :
    coalesceLoop (pre ++ c :: post) pre.length = pre ++ c :: post := by
  have hmn : mergeNext (pre ++ c :: post) pre.length =
      (pre ++ c :: post, false) := by
    cases post with
    | nil => exact mergeNext_at_last pre c
    | cons n post2 =>
        rw [mergeNext_eval]
        have hn : n.is_free = false := hR n (by simp)
        rw [if_neg (by simp [hn])]
  have hmp : mergePrev (pre ++ c :: post) pre.length =
      (pre ++ c :: post, pre.length, false) := by
    rcases List.eq_nil_or_concat' pre with rfl | ⟨pre1, p, rfl⟩
    · simpa using mergePrev_at_zero ([] ++ c :: post)
    · have hp : p.is_free = false := hL p (by rw [List.getLast?_concat]; rfl)
      have hlen : (pre1 ++ [p]).length = pre1.length + 1 := by simp
      rw [hlen, concat_cons_shape, mergePrev_eval, if_neg (by simp [hp]),
        ← concat_cons_shape, ← hlen]
  rw [coalesceLoop_eq]
  simp only [hmn, hmp]
  simp

theorem coalesce_right (pre : List MemoryBlock) (c n : MemoryBlock)
    (post2 : List MemoryBlock) (hc : c.is_free = true) (hn : n.is_free = true)
    (hL : ∀ q ∈ pre.getLast?, q.is_free = false)
    (hR2 : ∀ q ∈ post2.head?, q.is_free = false) :
    coalesceLoop (pre ++ c :: n :: post2) pre.length =
      pre ++ { c with size := c.size + n.size } :: post2 := by
  have hmn : mergeNext (pre ++ c :: n :: post2) pre.length =
      (pre ++ { c with size := c.size + n.size } :: post2, true) := by
    rw [mergeNext_eval, if_pos (by simp [hc, hn])]
  have hmp : mergePrev (pre ++ { c with size := c.size + n.size } :: post2)
      pre.length =
      (pre ++ { c with size := c.size + n.size } :: post2, pre.length, false) := by
    rcases List.eq_nil_or_concat' pre with rfl | ⟨pre1, p, rfl⟩
    · simpa using mergePrev_at_zero
        ([] ++ { c with size := c.size + n.size } :: post2)
    · have hp : p.is_free = false := hL p (by rw [List.getLast?_concat]; rfl)
      have hlen : (pre1 ++ [p]).length = pre1.length + 1 := by simp
      rw [hlen, concat_cons_shape, mergePrev_eval, if_neg (by simp [hp]),
        ← concat_cons_shape, ← hlen]
  rw [coalesceLoop_eq]
  simp only [hmn, hmp]
  rw [if_pos (by simp)]
  exact coalesce_none pre _ post2 hL hR2

theorem coalesce_left (pre1 : List MemoryBlock) (p c : MemoryBlock)
    (post : List MemoryBlock) (hp : p.is_free = true) (hc : c.is_free = true)
    (hL1 : ∀ q ∈ pre1.getLast?, q.is_free = false)
    (hR : ∀ q ∈ post.head?, q.is_free = false) :
    coalesceLoop (pre1 ++ p :: c :: post) (pre1.length + 1) =
      pre1 ++ { p with size := p.size + c.size } :: post := by
  have hlen : (pre1 ++ [p]).length = pre1.length + 1 := by simp
  have hmn : mergeNext (pre1 ++ p :: c :: post) (pre1.length + 1) =
      (pre1 ++ p :: c :: post, false) := by
    cases post with
    | nil =>
        rw [← concat_cons_shape, ← hlen]
        exact mergeNext_at_last (pre1 ++ [p]) c
    | cons n post2 =>
        rw [← concat_cons_shape, ← hlen, mergeNext_eval]
        have hn : n.is_free = false := hR n (by simp)
        rw [if_neg (by simp [hn]), concat_cons_shape]
  have hmp : mergePrev (pre1 ++ p :: c :: post) (pre1.length + 1) =
      (pre1 ++ { p with size := p.size + c.size } :: post, pre1.length, true) := by
    rw [mergePrev_eval, if_pos (by simp [hp, hc])]
  rw [coalesceLoop_eq]
  simp only [hmn, hmp]
  rw [if_pos (by simp)]
  exact coalesce_none pre1 _ post hL1 hR

theorem coalesce_both (pre1 : List MemoryBlock) (p c n : MemoryBlock)
    (post2 : List MemoryBlock) (hp : p.is_free = true) (hc : c.is_free = true)
    (hn : n.is_free = true)
    (hL1 : ∀ q ∈ pre1.getLast?, q.is_free = false)
    (hR2 : ∀ q ∈ post2.head?, q.is_free = false) :
    coalesceLoop (pre1 ++ p :: c :: n :: post2) (pre1.length + 1) =
      pre1 ++ { p with size := p.size + (c.size + n.size) } :: post2 := by
  have hlen : (pre1 ++ [p]).length = pre1.length + 1 := by simp
  have hmn : mergeNext (pre1 ++ p :: c :: n :: post2) (pre1.length + 1) =
      (pre1 ++ p :: { c with size := c.size + n.size } :: post2, true) := by
    rw [← concat_cons_shape, ← hlen, mergeNext_eval,
      if_pos (by simp [hc, hn]), concat_cons_shape]
  have hmp : mergePrev
      (pre1 ++ p :: { c with size := c.size + n.size } :: post2)
      (pre1.length + 1) =
      (pre1 ++ { p with size := p.size + (c.size + n.size) } :: post2,
        pre1.length, true) := by
    rw [mergePrev_eval, if_pos (by simp [hp, hc])]
  rw [coalesceLoop_eq]
  simp only [hmn, hmp]
  rw [if_pos (by simp)]
  exact coalesce_none pre1 _ post2 hL1 hR2

theorem findFirstIdx_of_decomp {α : Type} (p : α → Bool) (pre : List α) (x : α)
    (post : List α) (hx : p x = true) (hpre : ∀ y ∈ pre, p y = false) :
    findFirstIdx p (pre ++ x :: post) = some pre.length := by
  induction pre with
  | nil =>
      simp only [List.nil_append]
      unfold findFirstIdx
      rw [if_pos hx]
      rfl
  | cons a rest ih =>
      simp only [List.cons_append]
      unfold findFirstIdx
      have ha : p a = false := hpre a (by simp)
      rw [if_neg (by simp [ha]),
        ih (fun y hy => hpre y (List.mem_cons_of_mem _ hy))]
      rfl

theorem chainFrom_replace (u w v : List MemoryBlock) (X : MemoryBlock)
    (hne : w ≠ [])
    (h : chainFrom 0 (u ++ (w ++ v)))
    (hstart : ∀ b ∈ w.head?, X.start = b.start)
    (hsize : X.size = sumSizes w) :
    chainFrom 0 (u ++ X :: v) := by
  rw [chainFrom_append] at h ⊢
  obtain ⟨h1, h2⟩ := h
  refine ⟨h1, ?_⟩
  rw [chainFrom_append] at h2
  obtain ⟨hw, hv⟩ := h2
  cases w with
  | nil => exact absurd rfl hne
  | cons b w' =>
      obtain ⟨hb, _⟩ := hw
      refine ⟨by rw [hstart b (by simp), hb], ?_⟩
      rw [hsize]
      exact hv

theorem sumSizes_replace (u w v : List MemoryBlock) (X : MemoryBlock)
    (hsize : X.size = sumSizes w) :
    sumSizes (u ++ X :: v) = sumSizes (u ++ (w ++ v)) := by
  rw [sumSizes_append, sumSizes_append, sumSizes_append]
  simp only [sumSizes]
  omega

theorem noTwoFree_single (u v : List MemoryBlock) (f : MemoryBlock)
    (hu : List.Chain' notBothFree u) (hv : List.Chain' notBothFree v)
    (hL : ∀ q ∈ u.getLast?, q.is_free = false)
    (hR : ∀ q ∈ v.head?, q.is_free = false) :
    List.Chain' notBothFree (u ++ f :: v) := by
  rw [List.chain'_append]
  refine ⟨hu, ?_, ?_⟩
  · rw [List.chain'_cons']
    refine ⟨fun y hy => ?_, hv⟩
    intro hboth
    rw [hR y hy] at hboth
    simp at hboth
  · intro x hx y hy
    simp only [List.head?_cons, Option.mem_def, Option.some.injEq] at hy
    subst hy
    intro hboth
    rw [hL x hx] at hboth
    simp at hboth

theorem chainFrom_sorted (s : Int) (bs : List MemoryBlock)
    (h : chainFrom s bs) (hpos : ∀ b ∈ bs, 0 < b.size) :
    List.Chain' (fun a b => a.start < b.start) bs := by
  induction bs generalizing s with
  | nil => simp
  | cons b rest ih =>
      obtain ⟨hb, htail⟩ := h
      rw [List.chain'_cons']
      refine ⟨?_, ih (s + b.size) htail
        (fun x hx => hpos x (List.mem_cons_of_mem _ hx))⟩
      intro y hy
      cases rest with
      | nil => simp at hy
      | cons c rest' =>
          simp only [List.head?_cons, Option.mem_def, Option.some.injEq] at hy
          subst hy
          obtain ⟨hc, _⟩ := htail
          have hbpos : 0 < b.size := hpos b (by simp)
          rw [hb, hc]
          omega

theorem chainFrom_head_start (bs : List MemoryBlock) (h : chainFrom 0 bs) :
    ∀ b, bs.head? = some b → b.start = 0 := by
  intro b hb
  cases bs with
  | nil => simp at hb
  | cons x rest =>
      simp only [List.head?_cons, Option.some.injEq] at hb
      subst hb
      exact h.1

theorem chainFrom_last_end (s : Int) (bs : List MemoryBlock)
    (h : chainFrom s bs) :
    ∀ b, bs.getLast? = some b → b.start + b.size = s + sumSizes bs := by
  induction bs generalizing s with
  | nil => simp
  | cons x rest ih =>
      intro b hb
      obtain ⟨hx, htail⟩ := h
      cases rest with
      | nil =>
          simp only [List.getLast?_singleton, Option.some.injEq] at hb
          subst hb
          simp [sumSizes, hx]
      | cons y rest' =>
          rw [List.getLast?_cons_cons] at hb
          have hres := ih (s + x.size) htail b hb
          rw [hres]
          show s + x.size + sumSizes (y :: rest') = s + sumSizes (x :: y :: rest')
          simp only [sumSizes]
          ring

theorem MemInv_place (m : MemoryManager) (pre : List MemoryBlock)
    (c : MemoryBlock) (post : List MemoryBlock) (pid size : Int)
    (hdec : m.blocks = pre ++ c :: post)
    (hcf : c.is_free = true) (hcs : size ≤ c.size) (hpos : 0 < size)
    (hinv : MemInv m) :
    MemInv (placeBlock m pre.length pid size).1 := by
  obtain ⟨hchain, hsum, hnt, hsizes, hfi⟩ := hinv
  rw [hdec] at hchain hsum hnt hsizes hfi
  obtain ⟨hchainPre, hchainSuf⟩ := (chainFrom_append 0 pre (c :: post)).mp hchain
  obtain ⟨hcstart, hchainPost⟩ := hchainSuf
  obtain ⟨hntPre, hntCpost, hntSeamL⟩ := List.chain'_append.mp hnt
  obtain ⟨hntSeamR, hntPost⟩ := List.chain'_cons'.mp hntCpost
  have hheadPostFree : ∀ q ∈ post.head?, q.is_free = false := by
    intro q hq
    cases hq2 : q.is_free
    · rfl
    · exact absurd ⟨hcf, hq2⟩ (hntSeamR q hq)
  have hLpre : ∀ q ∈ pre.getLast?, q.is_free = false := by
    intro q hq
    cases hq2 : q.is_free
    · rfl
    · exact absurd ⟨hq2, hcf⟩ (hntSeamL q hq c (by simp))
  rw [sumSizes_append] at hsum
  simp only [sumSizes] at hsum
  rw [placeBlock_decomp m pre c post pid size hdec]
  unfold MemInv
  dsimp only
  by_cases hlt : size < c.size
  · rw [if_pos hlt]
    refine ⟨?_, ?_, ?_, ?_, ?_⟩
    · rw [chainFrom_append]
      refine ⟨hchainPre, ?_, ?_, ?_⟩
      · show (mkBlock c.start size (some pid)).start = 0 + sumSizes pre
        simpa [mkBlock] using hcstart
      · show (mkBlock (c.start + size) (c.size - size) none).start =
          0 + sumSizes pre + (mkBlock c.start size (some pid)).size
        simp only [mkBlock]
        omega
      · show chainFrom (0 + sumSizes pre + (mkBlock c.start size (some pid)).size +
            (mkBlock (c.start + size) (c.size - size) none).size) post
        simp only [mkBlock]
        have heq : 0 + sumSizes pre + size + (c.size - size) =
            0 + sumSizes pre + c.size := by ring
        rw [heq]
        exact hchainPost
    · rw [sumSizes_append]
      simp only [sumSizes, mkBlock]
      omega
    · show List.Chain' notBothFree (pre ++ _ :: _ :: post)
      rw [List.chain'_append]
      refine ⟨hntPre, ?_, ?_⟩
      · rw [List.chain'_cons']
        constructor
        · intro y hy
          intro hboth
          have := hboth.1
          simp [mkBlock] at this
        · rw [List.chain'_cons']
          refine ⟨?_, hntPost⟩
          intro y hy
          intro hboth
          rw [hheadPostFree y hy] at hboth
          simp at hboth
      · intro x hx y hy
        simp only [List.head?_cons, Option.mem_def, Option.some.injEq] at hy
        subst hy
        intro hboth
        have := hboth.2
        simp [mkBlock] at this
    · intro b hb
      rcases List.mem_append.mp hb with hb | hb
      · exact hsizes b (List.mem_append_left _ hb)
      · rcases List.mem_cons.mp hb with rfl | hb
        · simpa [mkBlock] using hpos
        · rcases List.mem_cons.mp hb with rfl | hb
          · simp only [mkBlock]
            omega
          · exact hsizes b (List.mem_append_right _ (List.mem_cons_of_mem _ hb))
    · intro b hb
      rcases List.mem_append.mp hb with hb | hb
      · exact hfi b (List.mem_append_left _ hb)
      · rcases List.mem_cons.mp hb with rfl | hb
        · simp [mkBlock]
        · rcases List.mem_cons.mp hb with rfl | hb
          · simp [mkBlock]
          · exact hfi b (List.mem_append_right _ (List.mem_cons_of_mem _ hb))
  · rw [if_neg hlt]
    have hceq : c.size = size := by omega
    refine ⟨?_, ?_, ?_, ?_, ?_⟩
    · rw [chainFrom_append]
      refine ⟨hchainPre, ?_, ?_⟩
      · show (mkBlock c.start size (some pid)).start = 0 + sumSizes pre
        simpa [mkBlock] using hcstart
      · show chainFrom
          (0 + sumSizes pre + (mkBlock c.start size (some pid)).size) post
        simp only [mkBlock]
        rw [← hceq]
        exact hchainPost
    · rw [sumSizes_append]
      simp only [sumSizes, mkBlock]
      omega
    · show List.Chain' notBothFree (pre ++ _ :: post)
      refine noTwoFree_single pre post _ hntPre hntPost hLpre hheadPostFree
    · intro b hb
      rcases List.mem_append.mp hb with hb | hb
      · exact hsizes b (List.mem_append_left _ hb)
      · rcases List.mem_cons.mp hb with rfl | hb
        · simpa [mkBlock] using hpos
        · exact hsizes b (List.mem_append_right _ (List.mem_cons_of_mem _ hb))
    · intro b hb
      rcases List.mem_append.mp hb with hb | hb
      · exact hfi b (List.mem_append_left _ hb)
      · rcases List.mem_cons.mp hb with rfl | hb
        · simp [mkBlock]
        · exact hfi b (List.mem_append_right _ (List.mem_cons_of_mem _ hb))

theorem MemInv_allocate_ff (m : MemoryManager) (pid size : Int)
    (hpos : 0 < size) (hinv : MemInv m) :
    MemInv (allocate_first_fit m pid size).1 := by
  unfold allocate_first_fit
  rcases hfind : findFirstIdx (fun b => b.is_free && decide (size ≤ b.size))
      m.blocks with _ | i
  · rw [hfind]
    exact hinv
  · rw [hfind]
    obtain ⟨pre, c, post, hdec, hlen, hc, _⟩ := findFirstIdx_decomp _ _ _ hfind
    subst hlen
    show MemInv (placeBlock m pre.length pid size).1
    exact MemInv_place m pre c post pid size hdec
      ((Bool.and_eq_true _ _).mp hc).1
      (of_decide_eq_true ((Bool.and_eq_true _ _).mp hc).2) hpos hinv

theorem MemInv_allocate_bf (m : MemoryManager) (pid size : Int)
    (hpos : 0 < size) (hinv : MemInv m) :
    MemInv (allocate_best_fit m pid size).1 := by
  unfold allocate_best_fit
  rcases hfind : bestFitLoop size m.blocks 0 none with _ | ⟨i, bsz⟩
  · exact hinv
  · rcases bestFitLoop_spec size m.blocks 0 none i bsz hfind with ⟨heq, _⟩ |
      ⟨u, c, v, hu, hj, hcf, hcs, _, _, _, _⟩
    · exact absurd heq (by simp)
    · have hilen : i = u.length := by omega
      subst hilen
      show MemInv (placeBlock m u.length pid size).1
      exact MemInv_place m u c v pid size hu hcf hcs hpos hinv

theorem MemInv_build (m : MemoryManager) (L : List MemoryBlock)
    (X : List (Int × MemoryBlock)) (u v w : List MemoryBlock) (f : MemoryBlock)
    (hL : L = u ++ f :: v) (hne : w ≠ [])
    (hchain : chainFrom 0 (u ++ (w ++ v)))
    (hsum : sumSizes (u ++ (w ++ v)) = m.total_size)
    (hfstart : ∀ b ∈ w.head?, f.start = b.start)
    (hfsize : f.size = sumSizes w)
    (hu : List.Chain' notBothFree u) (hv : List.Chain' notBothFree v)
    (hLu : ∀ q ∈ u.getLast?, q.is_free = false)
    (hRv : ∀ q ∈ v.head?, q.is_free = false)
    (husz : ∀ b ∈ u, 0 < b.size) (hvsz : ∀ b ∈ v, 0 < b.size)
    (hfsz : 0 < f.size)
    (hufi : ∀ b ∈ u, b.is_free = b.process_id.isNone)
    (hvfi : ∀ b ∈ v, b.is_free = b.process_id.isNone)
    (hffi : f.is_free = f.process_id.isNone) :
    MemInv { m with blocks := L, allocated_processes := X } := by
  subst hL
  unfold MemInv
  dsimp only
  refine ⟨?_, ?_, ?_, ?_, ?_⟩
  · exact chainFrom_replace u w v f hne hchain hfstart hfsize
  · rw [sumSizes_replace u w v f hfsize]
    exact hsum
  · exact noTwoFree_single u v f hu hv hLu hRv
  · intro b hb
    rcases List.mem_append.mp hb with hb | hb
    · exact husz b hb
    · rcases List.mem_cons.mp hb with rfl | hb
      · exact hfsz
      · exact hvsz b hb
  · intro b hb
    rcases List.mem_append.mp hb with hb | hb
    · exact hufi b hb
    · rcases List.mem_cons.mp hb with rfl | hb
      · exact hffi
      · exact hvfi b hb

theorem deallocate_char (m : MemoryManager) (pid : Int) (hinv : MemInv m)
    (pre : List MemoryBlock) (c : MemoryBlock) (post : List MemoryBlock)
    (hdec : m.blocks = pre ++ c :: post)
    (hcpid : c.process_id = some pid)
    (hfirst : ∀ x ∈ pre, ¬(x.process_id = some pid))
    (hhas : assocHas m.allocated_processes pid = true) :
    (deallocate m pid).2 = true ∧
    MemInv (deallocate m pid).1 ∧
    (∃ f preR postR, (deallocate m pid).1.blocks = preR ++ f :: postR ∧
      f.is_free = true ∧
      f.start ≤ c.start ∧ c.start + c.size ≤ f.start + f.size ∧
      (∀ n post2, post = n :: post2 → n.is_free = true →
        f.start ≤ n.start ∧ n.start + n.size ≤ f.start + f.size) ∧
      (∀ pre1 p, pre = pre1 ++ [p] → p.is_free = true →
        f.start ≤ p.start ∧ p.start + p.size ≤ f.start + f.size)) := by
  have hfind : findFirstIdx (fun b => b.process_id = some pid) m.blocks =
      some pre.length := by
    rw [hdec]
    refine findFirstIdx_of_decomp _ pre c post (by simp [hcpid]) ?_
    intro y hy
    simp [hfirst y hy]
  have hredex : deallocate m pid =
      ({ m with
          blocks := coalesceLoop (pre ++ freeBlock c :: post) pre.length,
          allocated_processes := assocErase m.allocated_processes pid },
        true) := by
    unfold deallocate
    rw [if_pos hhas, hfind]
    dsimp only
    rw [hdec, getD_at, set_at]
  obtain ⟨hchain, hsum, hnt, hsizes, hfi⟩ := hinv
  rw [hdec] at hchain hsum hnt hsizes hfi
  obtain ⟨hchainPre, hchainSuf⟩ := (chainFrom_append 0 pre (c :: post)).mp hchain
  obtain ⟨hcstart, hchainPost⟩ := hchainSuf
  obtain ⟨hntPre, hntCpost, _⟩ := List.chain'_append.mp hnt
  obtain ⟨_, hntPost⟩ := List.chain'_cons'.mp hntCpost
  have hcszpos : 0 < c.size :=
    hsizes c (List.mem_append_right _ (List.mem_cons_self _ _))
  have huszPre : ∀ b ∈ pre, 0 < b.size :=
    fun b hb => hsizes b (List.mem_append_left _ hb)
  have hvszPost : ∀ b ∈ post, 0 < b.size :=
    fun b hb => hsizes b (List.mem_append_right _ (List.mem_cons_of_mem _ hb))
  have hufiPre : ∀ b ∈ pre, b.is_free = b.process_id.isNone :=
    fun b hb => hfi b (List.mem_append_left _ hb)
  have hvfiPost : ∀ b ∈ post, b.is_free = b.process_id.isNone :=
    fun b hb => hfi b (List.mem_append_right _ (List.mem_cons_of_mem _ hb))
  rw [hredex]
  refine ⟨rfl, ?_⟩
  dsimp only
  rcases List.eq_nil_or_concat' pre with rfl | ⟨pre1, p, rfl⟩
  · -- no block precedes c
    have hLu : ∀ q ∈ ([] : List MemoryBlock).getLast?, q.is_free = false := by
      simp
    rcases post with _ | ⟨n, post2⟩
    · -- sole block
      have hco := coalesce_none [] (freeBlock c) [] hLu (by simp)
      rw [hco]
      constructor
      · refine MemInv_build m _ _ [] [] [c] (freeBlock c) rfl (by simp)
          hchain hsum ?_ ?_ (by simp) (by simp) hLu (by simp)
          (by simp) (by simp) ?_ (by simp) (by simp) rfl
        · intro b hb
          simp only [List.head?_cons, Option.mem_def, Option.some.injEq] at hb
          subst hb
          rfl
        · show c.size = sumSizes [c]
          simp [sumSizes]
        · show 0 < c.size
          exact hcszpos
      · refine ⟨freeBlock c, [], [], rfl, rfl, le_refl _, le_refl _, ?_, ?_⟩
        · intro n' post2' heq
          exact absurd heq (by simp)
        · intro pre1' p' heq
          have hlen := congrArg List.length heq
          simp at hlen
    · obtain ⟨hseamPost, hntPost2⟩ := List.chain'_cons'.mp hntPost
      have hnstart : n.start = c.start + c.size := by
        have h1 := hchainPost.1
        rw [hcstart]
        exact h1
      have hnpos : 0 < n.size := hvszPost n (by simp)
      by_cases hn : n.is_free = true
      · -- merge with the next block
        have hR2 : ∀ q ∈ post2.head?, q.is_free = false := by
          intro q hq
          cases h2 : q.is_free
          · rfl
          · exact absurd ⟨hn, h2⟩ (hseamPost q hq)
        have hco := coalesce_right [] (freeBlock c) n post2 rfl hn hLu hR2
        rw [hco]
        constructor
        · refine MemInv_build m _ _ [] post2 [c, n]
            { freeBlock c with size := (freeBlock c).size + n.size } rfl
            (by simp) hchain hsum ?_ ?_ (by simp) hntPost2 hLu hR2
            (by simp) (fun b hb => hvszPost b (List.mem_cons_of_mem _ hb)) ?_
            (by simp) (fun b hb => hvfiPost b (List.mem_cons_of_mem _ hb)) rfl
          · intro b hb
            simp only [List.head?_cons, Option.mem_def, Option.some.injEq] at hb
            subst hb
            rfl
          · show c.size + n.size = sumSizes [c, n]
            simp [sumSizes]
          · show 0 < c.size + n.size
            omega
        · refine ⟨_, [], post2, rfl, rfl, ?_, ?_, ?_, ?_⟩
          · show c.start ≤ c.start
            exact le_refl _
          · show c.start + c.size ≤ c.start + (c.size + n.size)
            omega
          · intro n' post2' heq hnf
            injection heq with h1 h2
            subst h1
            subst h2
            constructor
            · show c.start ≤ n.start
              omega
            · show n.start + n.size ≤ c.start + (c.size + n.size)
              omega
          · intro pre1' p' heq
            have hlen := congrArg List.length heq
            simp at hlen
      · -- next block is owned: no merge
        have hn' : n.is_free = false := by
          cases h2 : n.is_free
          · rfl
          · exact absurd h2 hn
        have hco := coalesce_none [] (freeBlock c) (n :: post2) hLu (by
          intro q hq
          simp only [List.head?_cons, Option.mem_def, Option.some.injEq] at hq
          subst hq
          exact hn')
        rw [hco]
        constructor
        · refine MemInv_build m _ _ [] (n :: post2) [c] (freeBlock c) rfl
            (by simp) hchain hsum ?_ ?_ (by simp) hntPost hLu ?_
            (by simp) hvszPost ?_ (by simp) hvfiPost rfl
          · intro b hb
            simp only [List.head?_cons, Option.mem_def, Option.some.injEq] at hb
            subst hb
            rfl
          · show c.size = sumSizes [c]
            simp [sumSizes]
          · intro q hq
            simp only [List.head?_cons, Option.mem_def, Option.some.injEq] at hq
            subst hq
            exact hn'
          · show 0 < c.size
            exact hcszpos
        · refine ⟨freeBlock c, [], n :: post2, rfl, rfl, le_refl _, le_refl _,
            ?_, ?_⟩
          · intro n' post2' heq hnf
            injection heq with h1 h2
            subst h1
            rw [hn'] at hnf
            exact absurd hnf (by simp)
          · intro pre1' p' heq
            have hlen := congrArg List.length heq
            simp at hlen
  · -- a block precedes c
    have hplen : (pre1 ++ [p]).length = pre1.length + 1 := by simp
    obtain ⟨hntPre1, _, hseamPre⟩ := List.chain'_append.mp hntPre
    have hppos : 0 < p.size := huszPre p (by simp)
    have hpend : p.start + p.size = c.start := by
      have h1 := chainFrom_last_end 0 (pre1 ++ [p]) hchainPre p
        (by rw [List.getLast?_concat])
      rw [hcstart]
      exact h1
    by_cases hp : p.is_free = true
    · -- merge with the previous block
      have hL1 : ∀ q ∈ pre1.getLast?, q.is_free = false := by
        intro q hq
        cases h2 : q.is_free
        · rfl
        · exact absurd ⟨h2, hp⟩ (hseamPre q hq p (by simp))
      rcases post with _ | ⟨n, post2⟩
      · -- only the previous block is free
        have hco' := coalesce_left pre1 p (freeBlock c) [] hp rfl hL1 (by simp)
        rw [← concat_cons_shape, ← hplen] at hco'
        rw [hco']
        constructor
        · refine MemInv_build m _ _ pre1 [] [p, c]
            { p with size := p.size + (freeBlock c).size } rfl (by simp)
            ?_ ?_ ?_ ?_ hntPre1 (by simp) hL1 (by simp)
            (fun b hb => huszPre b (List.mem_append_left _ hb)) (by simp) ?_
            (fun b hb => hufiPre b (List.mem_append_left _ hb)) (by simp) ?_
          · rw [concat_cons_shape] at hchain
            exact hchain
          · rw [concat_cons_shape] at hsum
            exact hsum
          · intro b hb
            simp only [List.head?_cons, Option.mem_def, Option.some.injEq] at hb
            subst hb
            rfl
          · show p.size + c.size = sumSizes [p, c]
            simp [sumSizes]
          · show 0 < p.size + c.size
            omega
          · show p.is_free = p.process_id.isNone
            exact hufiPre p (by simp)
        · refine ⟨_, pre1, [], rfl, ?_, ?_, ?_, ?_, ?_⟩
          · show ({ p with size := p.size + (freeBlock c).size }).is_free = true
            exact hp
          · show p.start ≤ c.start
            omega
          · show c.start + c.size ≤ p.start + (p.size + c.size)
            omega
          · intro n' post2' heq
            exact absurd heq (by simp)
          · intro pre1' p' heq hpf
            have hgl := congrArg List.getLast? heq
            rw [List.getLast?_concat, List.getLast?_concat] at hgl
            injection hgl with h3
            subst h3
            constructor
            · show p.start ≤ p.start
              exact le_refl _
            · show p.start + p.size ≤ p.start + (p.size + c.size)
              omega
      · obtain ⟨hseamPost, hntPost2⟩ := List.chain'_cons'.mp hntPost
        have hnstart : n.start = c.start + c.size := by
          have h1 := hchainPost.1
          rw [hcstart]
          exact h1
        have hnpos : 0 < n.size := hvszPost n (by simp)
        by_cases hn : n.is_free = true
        · -- merge on both sides
          have hR2 : ∀ q ∈ post2.head?, q.is_free = false := by
            intro q hq
            cases h2 : q.is_free
            · rfl
            · exact absurd ⟨hn, h2⟩ (hseamPost q hq)
          have hco' := coalesce_both pre1 p (freeBlock c) n post2 hp rfl hn
            hL1 hR2
          rw [← concat_cons_shape, ← hplen] at hco'
          rw [hco']
          constructor
          · refine MemInv_build m _ _ pre1 post2 [p, c, n]
              { p with size := p.size + ((freeBlock c).size + n.size) } rfl
              (by simp) ?_ ?_ ?_ ?_ hntPre1 hntPost2 hL1 hR2
              (fun b hb => huszPre b (List.mem_append_left _ hb))
              (fun b hb => hvszPost b (List.mem_cons_of_mem _ hb)) ?_
              (fun b hb => hufiPre b (List.mem_append_left _ hb))
              (fun b hb => hvfiPost b (List.mem_cons_of_mem _ hb)) ?_
            · rw [concat_cons_shape] at hchain
              exact hchain
            · rw [concat_cons_shape] at hsum
              exact hsum
            · intro b hb
              simp only [List.head?_cons, Option.mem_def, Option.some.injEq] at hb
              subst hb
              rfl
            · show p.size + (c.size + n.size) = sumSizes [p, c, n]
              simp [sumSizes]
            · show 0 < p.size + (c.size + n.size)
              omega
            · show p.is_free = p.process_id.isNone
              exact hufiPre p (by simp)
          · refine ⟨_, pre1, post2, rfl, ?_, ?_, ?_, ?_, ?_⟩
            · show ({ p with
                  size := p.size + ((freeBlock c).size + n.size) }).is_free = true
              exact hp
            · show p.start ≤ c.start
              omega
            · show c.start + c.size ≤ p.start + (p.size + (c.size + n.size))
              omega
            · intro n' post2' heq hnf
              injection heq with h1 h2
              subst h1
              subst h2
              constructor
              · show p.start ≤ n.start
                omega
              · show n.start + n.size ≤ p.start + (p.size + (c.size + n.size))
                omega
            · intro pre1' p' heq hpf
              have hgl := congrArg List.getLast? heq
              rw [List.getLast?_concat, List.getLast?_concat] at hgl
              injection hgl with h3
              subst h3
              constructor
              · show p.start ≤ p.start
                exact le_refl _
              · show p.start + p.size ≤ p.start + (p.size + (c.size + n.size))
                omega
        · -- merge only with the previous block
          have hn' : n.is_free = false := by
            cases h2 : n.is_free
            · rfl
            · exact absurd h2 hn
          have hco' := coalesce_left pre1 p (freeBlock c) (n :: post2) hp rfl
            hL1 (by
              intro q hq
              simp only [List.head?_cons, Option.mem_def, Option.some.injEq] at hq
              subst hq
              exact hn')
          rw [← concat_cons_shape, ← hplen] at hco'
          rw [hco']
          constructor
          · refine MemInv_build m _ _ pre1 (n :: post2) [p, c]
              { p with size := p.size + (freeBlock c).size } rfl (by simp)
              ?_ ?_ ?_ ?_ hntPre1 hntPost hL1 ?_
              (fun b hb => huszPre b (List.mem_append_left _ hb)) hvszPost ?_
              (fun b hb => hufiPre b (List.mem_append_left _ hb)) hvfiPost ?_
            · rw [concat_cons_shape] at hchain
              exact hchain
            · rw [concat_cons_shape] at hsum
              exact hsum
            · intro b hb
              simp only [List.head?_cons, Option.mem_def, Option.some.injEq] at hb
              subst hb
              rfl
            · show p.size + c.size = sumSizes [p, c]
              simp [sumSizes]
            · intro q hq
              simp only [List.head?_cons, Option.mem_def, Option.some.injEq] at hq
              subst hq
              exact hn'
            · show 0 < p.size + c.size
              omega
            · show p.is_free = p.process_id.isNone
              exact hufiPre p (by simp)
          · refine ⟨_, pre1, n :: post2, rfl, ?_, ?_, ?_, ?_, ?_⟩
            · show ({ p with size := p.size + (freeBlock c).size }).is_free = true
              exact hp
            · show p.start ≤ c.start
              omega
            · show c.start + c.size ≤ p.start + (p.size + c.size)
              omega
            · intro n' post2' heq hnf
              injection heq with h1 h2
              subst h1
              rw [hn'] at hnf
              exact absurd hnf (by simp)
            · intro pre1' p' heq hpf
              have hgl := congrArg List.getLast? heq
              rw [List.getLast?_concat, List.getLast?_concat] at hgl
              injection hgl with h3
              subst h3
              constructor
              · show p.start ≤ p.start
                exact le_refl _
              · show p.start + p.size ≤ p.start + (p.size + c.size)
                omega
    · -- previous block is owned
      have hp' : p.is_free = false := by
        cases h2 : p.is_free
        · rfl
        · exact absurd h2 hp
      have hLu : ∀ q ∈ (pre1 ++ [p]).getLast?, q.is_free = false := by
        intro q hq
        rw [List.getLast?_concat] at hq
        simp only [Option.mem_def, Option.some.injEq] at hq
        subst hq
        exact hp'
      rcases post with _ | ⟨n, post2⟩
      · have hco := coalesce_none (pre1 ++ [p]) (freeBlock c) [] hLu (by simp)
        rw [hco]
        constructor
        · refine MemInv_build m _ _ (pre1 ++ [p]) [] [c] (freeBlock c) rfl
            (by simp) hchain hsum ?_ ?_ hntPre (by simp) hLu (by simp)
            huszPre (by simp) ?_ hufiPre (by simp) rfl
          · intro b hb
            simp only [List.head?_cons, Option.mem_def, Option.some.injEq] at hb
            subst hb
            rfl
          · show c.size = sumSizes [c]
            simp [sumSizes]
          · show 0 < c.size
            exact hcszpos
        · refine ⟨freeBlock c, pre1 ++ [p], [], rfl, rfl, le_refl _, le_refl _,
            ?_, ?_⟩
          · intro n' post2' heq
            exact absurd heq (by simp)
          · intro pre1' p' heq hpf
            have hgl := congrArg List.getLast? heq
            rw [List.getLast?_concat, List.getLast?_concat] at hgl
            injection hgl with h3
            subst h3
            rw [hp'] at hpf
            exact absurd hpf (by simp)
      · obtain ⟨hseamPost, hntPost2⟩ := List.chain'_cons'.mp hntPost
        have hnstart : n.start = c.start + c.size := by
          have h1 := hchainPost.1
          rw [hcstart]
          exact h1
        have hnpos : 0 < n.size := hvszPost n (by simp)
        by_cases hn : n.is_free = true
        · have hR2 : ∀ q ∈ post2.head?, q.is_free = false := by
            intro q hq
            cases h2 : q.is_free
            · rfl
            · exact absurd ⟨hn, h2⟩ (hseamPost q hq)
          have hco := coalesce_right (pre1 ++ [p]) (freeBlock c) n post2 rfl hn
            hLu hR2
          rw [hco]
          constructor
          · refine MemInv_build m _ _ (pre1 ++ [p]) post2 [c, n]
              { freeBlock c with size := (freeBlock c).size + n.size } rfl
              (by simp) hchain hsum ?_ ?_ hntPre hntPost2 hLu hR2
              huszPre (fun b hb => hvszPost b (List.mem_cons_of_mem _ hb)) ?_
              hufiPre (fun b hb => hvfiPost b (List.mem_cons_of_mem _ hb)) rfl
            · intro b hb
              simp only [List.head?_cons, Option.mem_def, Option.some.injEq] at hb
              subst hb
              rfl
            · show c.size + n.size = sumSizes [c, n]
              simp [sumSizes]
            · show 0 < c.size + n.size
              omega
          · refine ⟨_, pre1 ++ [p], post2, rfl, rfl, ?_, ?_, ?_, ?_⟩
            · show c.start ≤ c.start
              exact le_refl _
            · show c.start + c.size ≤ c.start + (c.size + n.size)
              omega
            · intro n' post2' heq hnf
              injection heq with h1 h2
              subst h1
              subst h2
              constructor
              · show c.start ≤ n.start
                omega
              · show n.start + n.size ≤ c.start + (c.size + n.size)
                omega
            · intro pre1' p' heq hpf
              have hgl := congrArg List.getLast? heq
              rw [List.getLast?_concat, List.getLast?_concat] at hgl
              injection hgl with h3
              subst h3
              rw [hp'] at hpf
              exact absurd hpf (by simp)
        · have hn' : n.is_free = false := by
            cases h2 : n.is_free
            · rfl
            · exact absurd h2 hn
          have hco := coalesce_none (pre1 ++ [p]) (freeBlock c) (n :: post2)
            hLu (by
              intro q hq
              simp only [List.head?_cons, Option.mem_def, Option.some.injEq] at hq
              subst hq
              exact hn')
          rw [hco]
          constructor
          · refine MemInv_build m _ _ (pre1 ++ [p]) (n :: post2) [c]
              (freeBlock c) rfl (by simp) hchain hsum ?_ ?_ hntPre hntPost
              hLu ?_ huszPre hvszPost ?_ hufiPre hvfiPost rfl
            · intro b hb
              simp only [List.head?_cons, Option.mem_def, Option.some.injEq] at hb
              subst hb
              rfl
            · show c.size = sumSizes [c]
              simp [sumSizes]
            · intro q hq
              simp only [List.head?_cons, Option.mem_def, Option.some.injEq] at hq
              subst hq
              exact hn'
            · show 0 < c.size
              exact hcszpos
          · refine ⟨freeBlock c, pre1 ++ [p], n :: post2, rfl, rfl, le_refl _,
              le_refl _, ?_, ?_⟩
            · intro n' post2' heq hnf
              injection heq with h1 h2
              subst h1
              rw [hn'] at hnf
              exact absurd hnf (by simp)
            · intro pre1' p' heq hpf
              have hgl := congrArg List.getLast? heq
              rw [List.getLast?_concat, List.getLast?_concat] at hgl
              injection hgl with h3
              subst h3
              rw [hp'] at hpf
              exact absurd hpf (by simp)

theorem MemInv_deallocate (m : MemoryManager) (pid : Int) (hinv : MemInv m) :
    MemInv (deallocate m pid).1 := by
  by_cases hhas : assocHas m.allocated_processes pid = true
  · rcases hfind : findFirstIdx (fun b => b.process_id = some pid) m.blocks
      with _ | i
    · unfold deallocate
      rw [if_pos hhas, hfind]
      exact hinv
    · obtain ⟨pre, c, post, hdec, hlen, hc, hpre⟩ :=
        findFirstIdx_decomp _ _ _ hfind
      subst hlen
      have hcpid : c.process_id = some pid := of_decide_eq_true hc
      have hfirst : ∀ x ∈ pre, ¬(x.process_id = some pid) := by
        intro x hx
        have := hpre x hx
        simpa using this
      exact (deallocate_char m pid hinv pre c post hdec hcpid hfirst hhas).2.1
  · unfold deallocate
    rw [if_neg hhas]
    exact hinv

theorem MemInv_init (total : Int) (h : 0 < total) : MemInv (mkManager total) := by
  unfold MemInv mkManager NoTwoFree
  refine ⟨⟨rfl, trivial⟩, ?_, ?_, ?_, ?_⟩
  · simp [sumSizes, mkBlock]
  · simp
  · intro b hb
    simp only [List.mem_singleton] at hb
    subst hb
    simpa [mkBlock] using h
  · intro b hb
    simp only [List.mem_singleton] at hb
    subst hb
    simp [mkBlock]

/-- C1: for every reachable manager state, the block sizes sum to
`total_size`, the blocks are contiguous from address 0 to `total_size` (each
block starts where the previous one ends, the first at 0, the last ending at
`total_size`), they are sorted by strictly increasing start, and no two
consecutive blocks are both free; moreover deallocating a block makes the
freed region, together with any adjacent free neighbor on either side, part of
exactly one free block spanning both extents. -/
theorem memory_manager_invariant (m : MemoryManager) (h : Reachable m) :
    sumSizes m.blocks = m.total_size ∧
    chainFrom 0 m.blocks ∧
    (∀ b, m.blocks.head? = some b → b.start = 0) ∧
    (∀ b, m.blocks.getLast? = some b → b.start + b.size = m.total_size) ∧
    List.Chain' (fun a b => a.start < b.start) m.blocks ∧
    NoTwoFree m.blocks ∧
    (∀ pid pre c post, m.blocks = pre ++ c :: post →
      c.process_id = some pid →
      (∀ x ∈ pre, ¬(x.process_id = some pid)) →
      assocHas m.allocated_processes pid = true →
      (deallocate m pid).2 = true ∧
      ∃ f preR postR, (deallocate m pid).1.blocks = preR ++ f :: postR ∧
        f.is_free = true ∧
        f.start ≤ c.start ∧ c.start + c.size ≤ f.start + f.size ∧
        (∀ n post2, post = n :: post2 → n.is_free = true →
          f.start ≤ n.start ∧ n.start + n.size ≤ f.start + f.size) ∧
        (∀ pre1 p, pre = pre1 ++ [p] → p.is_free = true →
          f.start ≤ p.start ∧ p.start + p.size ≤ f.start + f.size)) := by
  have hinv : MemInv m := by
    induction h with
    | init total ht => exact MemInv_init total ht
    | ff m' pid size hr hs ih => exact MemInv_allocate_ff m' pid size hs ih
    | bf m' pid size hr hs ih => exact MemInv_allocate_bf m' pid size hs ih
    | de m' pid hr ih => exact MemInv_deallocate m' pid ih
  obtain ⟨hchain, hsum, hnt, hsizes, hfi⟩ := hinv
  refine ⟨hsum, hchain, chainFrom_head_start m.blocks hchain, ?_,
    chainFrom_sorted 0 m.blocks hchain hsizes, hnt, ?_⟩
  · intro b hb
    have hend := chainFrom_last_end 0 m.blocks hchain b hb
    rw [hend]
    omega
  · intro pid pre c post hdec2 hcpid hfirst hhas
    have hchar := deallocate_char m pid ⟨hchain, hsum, hnt, hsizes, hfi⟩
      pre c post hdec2 hcpid hfirst hhas
    exact ⟨hchar.1, hchar.2.2⟩

/-- Witness for C1: the invariant instantiated at the state reached by two
first-fit allocations from a fresh 8-unit manager. -/
theorem memory_manager_invariant_witness :
    sumSizes (allocate_first_fit (allocate_first_fit
        (mkManager 8) 1 3).1 2 5).1.blocks =
      (allocate_first_fit (allocate_first_fit
        (mkManager 8) 1 3).1 2 5).1.total_size ∧
    chainFrom 0 (allocate_first_fit (allocate_first_fit
        (mkManager 8) 1 3).1 2 5).1.blocks :=
  ⟨(memory_manager_invariant _ (Reachable.ff _ 2 5
      (Reachable.ff _ 1 3 (Reachable.init 8 (by decide)) (by decide))
      (by decide))).1,
   (memory_manager_invariant _ (Reachable.ff _ 2 5
      (Reachable.ff _ 1 3 (Reachable.init 8 (by decide)) (by decide))
      (by decide))).2.1⟩
